import Mathlib

/-!
Shallow embedding of the two labs in this repository:

* `src/canonicalization-example/server.js` — the path-canonicalization guard:
  `sanitizeFilename`, `resolveSafe`, and the guarded `POST /read` handler.
* `src/unnamed/part_000` — the session/auth lab: `createSession`,
  `rotateSession`, `requireAuth`, and the `/api/login` and `/api/logout`
  handlers.

Strings are modelled by Lean `String` (a list of characters); JavaScript
string methods (`startsWith`, `includes`, trim) are modelled by structurally
recursive functions on `List Char` so that every definition is executable and
kernel-reducible.  Nondeterministic ingredients of the source —
`crypto.randomBytes` (the freshly generated token), `Date.now()`, the
filesystem, and `bcrypt.compare` — are passed in as explicit parameters.
-/

/-- Leading-run test on character lists: `leadsWith p l` is true when `p`
occurs at the start of `l`.  Models `String.prototype.startsWith`. -/
def leadsWith : List Char → List Char → Bool
  | [], _ => true
  | _ :: _, [] => false
  | p :: ps, c :: cs => p == c && leadsWith ps cs

/-- Substring test on character lists: `hasSub sub l` is true when `sub`
occurs contiguously inside `l`.  Models `String.prototype.includes`. -/
def hasSub (sub : List Char) : List Char → Bool
  | [] => sub.isEmpty
  | c :: t => leadsWith sub (c :: t) || hasSub sub t

/-- JS `s.startsWith(p)`. -/
def jsStartsWith (s p : String) : Bool := leadsWith p.data s.data

/-- JS `s.includes(sub)`. -/
def jsIncludes (s sub : String) : Bool := hasSub sub.data s.data

/-- JS whitespace trim on a character list, left side. -/
def trimLeftCL (l : List Char) : List Char := l.dropWhile Char.isWhitespace

/-- JS whitespace trim on a character list, both sides.  Models the
`express-validator` trim sanitizer applied to the `filename` body field. -/
def jsTrim (s : String) : String :=
  ⟨(trimLeftCL ((trimLeftCL s.data).reverse)).reverse⟩

/-- Value of a hexadecimal digit character, if it is one (codepoint 48 is
`0`, 97 is `a`, 65 is `A`). -/
def hexDigitVal (c : Char) : Option Nat :=
  if c.isDigit then some (c.toNat - 48)
  else if c.toNat ≥ 97 ∧ c.toNat ≤ 102 then some (c.toNat - 87)
  else if c.toNat ≥ 65 ∧ c.toNat ≤ 70 then some (c.toNat - 55)
  else none

/-- Single-pass percent-decoding of a character list, modelling
`decodeURIComponent`: each `%hh` becomes the character with code `hh`, and a
malformed escape makes the whole decode fail (the JS function throws
`URIError`). -/
def percentDecodeList : List Char → Option (List Char)
  | [] => some []
  | c :: rest =>
    if c = '%' then
      match rest with
      | c1 :: c2 :: rest2 =>
        match hexDigitVal c1, hexDigitVal c2, percentDecodeList rest2 with
        | some h1, some h2, some d => some (Char.ofNat (16 * h1 + h2) :: d)
        | _, _, _ => none
      | _ => none
    else
      match percentDecodeList rest with
      | some d => some (c :: d)
      | none => none

/-- Percent-decoding on strings; `none` models a thrown `URIError`. -/
def percentDecode (s : String) : Option String :=
  (percentDecodeList s.data).map fun l => ⟨l⟩

/-- Split a character list on `'/'`, producing the separator-free chunks.
Models the segment view that `path.resolve` normalizes. -/
def splitSlash : List Char → List (List Char)
  | [] => [[]]
  | c :: t =>
    if c = '/' then [] :: splitSlash t
    else
      match splitSlash t with
      | [] => [[c]]
      | h :: r => (c :: h) :: r

/-- POSIX path-segment normalization: empty and `.` segments are dropped, a
`..` segment removes the previous kept segment (and is dropped at the root,
as `path.resolve` does for absolute paths). -/
def normSegs (acc : List (List Char)) : List (List Char) → List (List Char)
  | [] => acc
  | seg :: rest =>
    if seg.isEmpty || seg == ['.'] then normSegs acc rest
    else if seg == ['.', '.'] then normSegs acc.dropLast rest
    else normSegs (acc ++ [seg]) rest

/-- Rejoin normalized segments with `'/'` between them (no leading slash). -/
def joinSegs : List (List Char) → List Char
  | [] => []
  | [s] => s
  | s :: s2 :: rest => s ++ '/' :: joinSegs (s2 :: rest)

/-- Node `path.resolve(base, input)` for an absolute POSIX `base`: an
absolute `input` is resolved on its own, otherwise it is appended to `base`;
the concatenation is then normalized into a canonical absolute path. -/
def pathResolve (base input : String) : String :=
  let full : List Char :=
    if jsStartsWith input "/" then input.data else base.data ++ '/' :: input.data
  ⟨'/' :: joinSegs (normSegs [] (splitSlash full))⟩

/-!  The canonicalization lab, `src/canonicalization-example/server.js`. -/

/-- Character class of the `SAFE_FILENAME` regex
`^[A-Za-z0-9._\-\/]+$`: ASCII letters, digits, `.`, `_`, `-`, `/`. -/
def SAFE_FILENAME_char (c : Char) : Bool :=
  c.isAlpha || c.isDigit || c == '.' || c == '_' || c == '-' || c == '/'

/-- The `SAFE_FILENAME` regex test: nonempty and every character in the
allow-list. -/
def SAFE_FILENAME (s : String) : Bool :=
  !s.isEmpty && s.data.all SAFE_FILENAME_char

/-- The three exceptions `sanitizeFilename` can throw, in source order. -/
inductive SanitizeError where
  | illegalChars
  | traversal
  | absolute
  deriving DecidableEq, Repr

/-- The `sanitizeFilename` validator: regex allow-list first, then the
literal `..` check, then the leading-`/` check; returns the value unchanged
when all pass. -/
def sanitizeFilename (value : String) : Except SanitizeError String :=
  if !(SAFE_FILENAME value) then .error .illegalChars
  else if jsIncludes value ".." then .error .traversal
  else if jsStartsWith value "/" then .error .absolute
  else .ok value

/-- The `resolveSafe` helper: percent-decode once, keeping the raw input when
decoding throws, then resolve against the base directory. -/
def resolveSafe (baseDir userInput : String) : String :=
  pathResolve baseDir ((percentDecode userInput).getD userInput)

/-- Outcomes of the guarded `POST /read` route: 400 validation errors, the
403 traversal rejection, 404, and a successful read. -/
inductive ReadOutcome where
  | validationFailed
  | traversalDetected
  | fileNotFound
  | ok (path content : String)
  deriving DecidableEq, Repr

/-- The guarded `POST /read` handler.  The filesystem is modelled by the two
oracles `fsExists` and `fsRead`; the second component of the result lists
every path the handler touched on the filesystem (`fs.existsSync` and
`fs.readFileSync` calls), in order.  The validator chain trims the field,
rejects the empty string, and runs `sanitizeFilename`; validation errors are
reported as 400 before the handler body runs. -/
def readHandler (base : String) (fsExists : String → Bool)
    (fsRead : String → String) (rawFilename : String) :
    ReadOutcome × List String :=
  let filename := jsTrim rawFilename
  if filename.isEmpty then (.validationFailed, [])
  else
    match sanitizeFilename filename with
    | .error _ => (.validationFailed, [])
    | .ok _ =>
      let normalized := resolveSafe base filename
      if !(jsStartsWith normalized (base ++ "/")) then (.traversalDetected, [])
      else if !(fsExists normalized) then (.fileNotFound, [normalized])
      else (.ok normalized (fsRead normalized), [normalized, normalized])

/-!  The session/auth lab, `src/unnamed/part_000`. -/

/-- A stored session record: `{ userId, expires }`. -/
structure SessionData where
  userId : Nat
  expires : Nat
  deriving DecidableEq, Repr

/-- The in-memory session table `sessions` (`token -> { userId, expires }`),
modelled as an association list: assignment prepends, lookup takes the first
match, delete removes every binding of the key. -/
abbrev SessionStore := List (String × SessionData)

/-- Property read `sessions[token]`. -/
def storeLookup (store : SessionStore) (token : String) : Option SessionData :=
  store.lookup token

/-- JS `delete sessions[token]`. -/
def storeDelete (store : SessionStore) (token : String) : SessionStore :=
  store.filter fun p => p.1 != token

/-- The session TTL: 30 minutes in milliseconds. -/
def TTL : Nat := 30 * 60 * 1000

/-- The `createSession(userId)` helper.  The freshly generated
`crypto.randomBytes` token and the current `Date.now()` are explicit
parameters; the store with the new binding is returned. -/
def createSession (store : SessionStore) (token : String) (userId now : Nat) :
    SessionStore :=
  (token, ⟨userId, now + TTL⟩) :: store

/-- The `rotateSession(oldToken, userId)` helper: delete the old binding when
the cookie was present and bound, then create a fresh session. -/
def rotateSession (store : SessionStore) (oldToken : Option String)
    (userId : Nat) (newToken : String) (now : Nat) : SessionStore :=
  let store2 :=
    match oldToken with
    | some t => if (storeLookup store t).isSome then storeDelete store t else store
    | none => store
  createSession store2 newToken userId now

/-- The 401 body sent by `requireAuth`, plus whether the response also
cleared the session cookie (`res.clearCookie("session")`). -/
structure AuthResponse where
  status : Nat
  authenticated : Bool
  clearedCookie : Bool
  deriving DecidableEq, Repr

/-- Result of the `requireAuth` middleware: either a 401 denial response or
control passed to the route with `req.userId` set. -/
inductive AuthOutcome where
  | denied (resp : AuthResponse)
  | allowed (userId : Nat)
  deriving DecidableEq, Repr

/-- The `requireAuth` middleware.  `cookie` is `req.cookies.session`, `now`
is `Date.now()`; the returned store reflects the lazy expiry deletion and the
sliding-window renewal. -/
def requireAuth (store : SessionStore) (cookie : Option String) (now : Nat) :
    AuthOutcome × SessionStore :=
  match cookie with
  | none => (.denied ⟨401, false, false⟩, store)
  | some token =>
    match storeLookup store token with
    | none => (.denied ⟨401, false, false⟩, store)
    | some sess =>
      if now > sess.expires then
        (.denied ⟨401, false, true⟩, storeDelete store token)
      else
        (.allowed sess.userId,
          (token, ⟨sess.userId, now + TTL⟩) :: store)

/-- A user record of the seeded `users` array. -/
structure User where
  id : Nat
  username : String
  passwordHash : String
  deriving DecidableEq, Repr

/-- The `findUser(username)` helper: exact match on `username`. -/
def findUser (users : List User) (username : String) : Option User :=
  users.find? fun u => u.username == username

/-- Response of `POST /api/login`: HTTP status, the `success` flag, and the
optional `message` field. -/
structure LoginResponse where
  status : Nat
  success : Bool
  message : Option String
  deriving DecidableEq, Repr

/-- The generic `INVALID()` response of the login route. -/
def invalidResp : LoginResponse :=
  ⟨401, false, some "Invalid username or password"⟩

/-- The `POST /api/login` handler.  `bcryptCompare` models `bcrypt.compare`
(candidate password against stored hash), `cookie` is the presented session
cookie, `newToken` the token `crypto.randomBytes` would mint, `now` is
`Date.now()`.  Returns the response, the session store after the request, the
cookie set on the response (if any), and whether the hash comparison was
invoked on this path. -/
def loginHandler (users : List User) (bcryptCompare : String → String → Bool)
    (store : SessionStore) (cookie : Option String)
    (username password : String) (newToken : String) (now : Nat) :
    LoginResponse × SessionStore × Option String × Bool :=
  match findUser users username with
  | none => (invalidResp, store, none, false)
  | some user =>
    if bcryptCompare password user.passwordHash then
      (⟨200, true, none⟩, rotateSession store cookie user.id newToken now,
        some newToken, true)
    else
      (invalidResp, store, none, true)

/-- The `POST /api/logout` handler's effect on the store: delete the binding
when the cookie is present and bound. -/
def logoutStore (store : SessionStore) (cookie : Option String) : SessionStore :=
  match cookie with
  | some t => if (storeLookup store t).isSome then storeDelete store t else store
  | none => store

/-- One store-mutating request against the session lab, with its own
`Date.now()` and (for minting operations) its own fresh token. -/
inductive SessionOp where
  | create (token : String) (userId now : Nat)
  | rotate (oldToken : Option String) (userId : Nat) (newToken : String) (now : Nat)
  | logout (cookie : Option String)
  | auth (cookie : Option String) (now : Nat)
  deriving DecidableEq, Repr

/-- Effect of one request on the session store. -/
def applyOp (store : SessionStore) : SessionOp → SessionStore
  | .create t uid now => createSession store t uid now
  | .rotate old uid t now => rotateSession store old uid t now
  | .logout c => logoutStore store c
  | .auth c now => (requireAuth store c now).2

/-- Effect of a sequence of requests on the session store. -/
def applyOps (store : SessionStore) (ops : List SessionOp) : SessionStore :=
  ops.foldl applyOp store

/-- The token a request mints and stores, if any. -/
def minted : SessionOp → Option String
  | .create t _ _ => some t
  | .rotate _ _ t _ => some t
  | .logout _ => none
  | .auth _ _ => none

/-!  Bridge lemmas between the executable string tests and Mathlib's
`List.IsPrefix` / `List.IsInfix` relations. -/

theorem leadsWith_iff (p : List Char) : ∀ l : List Char, leadsWith p l = true ↔ p <+: l := by
  induction p with
  | nil =>
    intro l
    simp [leadsWith, List.IsPrefix]
  | cons p ps ih =>
    intro l
    cases l with
    | nil => simp [leadsWith, List.IsPrefix]
    | cons c cs =>
      simp only [leadsWith, Bool.and_eq_true, beq_iff_eq, ih cs, List.IsPrefix]
      constructor
      · rintro ⟨hpc, t, ht⟩
        exact ⟨t, by simp [hpc, ht]⟩
      · rintro ⟨t, ht⟩
        obtain ⟨h1, h2⟩ := List.cons.inj ht
        exact ⟨h1, t, h2⟩

theorem hasSub_iff (sub : List Char) : ∀ l : List Char, hasSub sub l = true ↔ sub <:+: l := by
  intro l
  induction l with
  | nil =>
    simp [hasSub, List.isEmpty_iff, List.IsInfix]
  | cons c cs ih =>
    simp only [hasSub, Bool.or_eq_true, leadsWith_iff, ih]
    constructor
    · rintro (h | h)
      · exact h.isInfix
      · exact h.trans (List.suffix_cons c cs).isInfix
    · intro h
      rcases h with ⟨s, t, hst⟩
      cases s with
      | nil => exact Or.inl ⟨t, by simpa using hst⟩
      | cons x xs =>
        right
        rw [List.cons_append, List.cons_append] at hst
        obtain ⟨-, h2⟩ := List.cons.inj hst
        exact ⟨xs, t, h2⟩

/-- A contiguous occurrence survives reversal. -/
theorem sub_reverse {p l : List Char} (h : p <:+: l) : p.reverse <:+: l.reverse := by
  rcases h with ⟨s, t, rfl⟩
  exact ⟨t.reverse, s.reverse, by simp⟩

/-- A contiguous occurrence whose first character the predicate rejects
survives `dropWhile`. -/
theorem sub_dropWhile (w : Char → Bool) (p : List Char) (c0 : Char)
    (hh : p.head? = some c0) (hw : w c0 = false) :
    ∀ l : List Char, p <:+: l → p <:+: l.dropWhile w := by
  intro l
  induction l with
  | nil => exact fun h => h
  | cons x t ih =>
    intro h
    rw [← hasSub_iff] at h
    simp only [hasSub, Bool.or_eq_true, leadsWith_iff, hasSub_iff] at h
    rw [List.dropWhile_cons]
    by_cases hx : w x = true
    · simp only [hx, if_true]
      rcases h with h | h
      · cases p with
        | nil => simp at hh
        | cons q qs =>
          obtain rfl : q = c0 := by simpa using hh
          rcases h with ⟨u, hu⟩
          obtain ⟨h1, -⟩ := List.cons.inj hu
          rw [h1] at hw
          rw [hx] at hw
          exact absurd hw (by simp)
      · exact ih h
    · simp only [hx, if_false]
      rw [← hasSub_iff]
      simp only [hasSub, Bool.or_eq_true, leadsWith_iff, hasSub_iff]
      rcases h with h | h
      · exact Or.inl h
      · exact Or.inr h

/-- A member rejected by the predicate survives `dropWhile`. -/
theorem mem_dropWhile (w : Char → Bool) (c : Char) (hw : w c = false) :
    ∀ l : List Char, c ∈ l → c ∈ l.dropWhile w := by
  intro l
  induction l with
  | nil => exact fun h => h
  | cons x t ih =>
    intro h
    rw [List.dropWhile_cons]
    by_cases hx : w x = true
    · simp only [hx, if_true]
      rcases List.mem_cons.mp h with rfl | h
      · rw [hx] at hw; exact absurd hw (by simp)
      · exact ih h
    · simpa [hx] using h

/-- A contiguous occurrence whose first and last characters are not
whitespace survives the validator's trim. -/
theorem sub_trim (s : String) (p : List Char) (c0 c1 : Char)
    (hh : p.head? = some c0) (hwh : c0.isWhitespace = false)
    (hl : p.getLast? = some c1) (hwl : c1.isWhitespace = false)
    (h : p <:+: s.data) : p <:+: (jsTrim s).data := by
  have h1 : p <:+: trimLeftCL s.data := sub_dropWhile _ p c0 hh hwh _ h
  have h2 : p.reverse <:+: (trimLeftCL s.data).reverse := sub_reverse h1
  have hh2 : p.reverse.head? = some c1 := by rw [List.head?_reverse]; exact hl
  have h3 : p.reverse <:+: trimLeftCL ((trimLeftCL s.data).reverse) :=
    sub_dropWhile _ p.reverse c1 hh2 hwl _ h2
  have h4 := sub_reverse h3
  rw [List.reverse_reverse] at h4
  exact h4

/-- A non-whitespace head character survives the validator's trim. -/
theorem head_trim (s : String) (c : Char) (hc : s.data.head? = some c)
    (hw : c.isWhitespace = false) : (jsTrim s).data.head? = some c := by
  obtain ⟨t, ht⟩ : ∃ t, s.data = c :: t := by
    cases hd : s.data with
    | nil => rw [hd] at hc; simp at hc
    | cons x xs =>
      refine ⟨xs, ?_⟩
      rw [hd] at hc
      simp only [List.head?_cons, Option.some.injEq] at hc
      rw [hc]
  have hm : trimLeftCL s.data = c :: t := by
    rw [ht]; simp [trimLeftCL, List.dropWhile_cons, hw]
  have hdne : trimLeftCL ((c :: t).reverse) ≠ [] := by
    intro hnil
    have h1 := List.dropWhile_eq_nil_iff.mp hnil c (by simp)
    simp [hw] at h1
  have hsplit : (c :: t).reverse
      = (c :: t).reverse.takeWhile Char.isWhitespace ++ trimLeftCL ((c :: t).reverse) :=
    (List.takeWhile_append_dropWhile _ _).symm
  have hrev := congrArg List.reverse hsplit
  rw [List.reverse_reverse, List.reverse_append] at hrev
  have hne2 : (trimLeftCL ((c :: t).reverse)).reverse ≠ [] := by
    simpa using hdne
  have hhead : ((trimLeftCL ((c :: t).reverse)).reverse).head? = some c := by
    cases hdr : (trimLeftCL ((c :: t).reverse)).reverse with
    | nil => exact absurd hdr hne2
    | cons y ys =>
      rw [hdr, List.cons_append] at hrev
      obtain ⟨h1, -⟩ := List.cons.inj hrev
      simp [hdr, h1]
  show ((trimLeftCL ((trimLeftCL s.data).reverse)).reverse).head? = some c
  rw [hm]
  exact hhead

/-- A non-whitespace member survives the validator's trim. -/
theorem mem_trim (s : String) (c : Char) (hc : c ∈ s.data)
    (hw : c.isWhitespace = false) : c ∈ (jsTrim s).data := by
  have h1 : c ∈ trimLeftCL s.data := mem_dropWhile _ c hw _ hc
  have h2 : c ∈ (trimLeftCL s.data).reverse := List.mem_reverse.mpr h1
  have h3 : c ∈ trimLeftCL ((trimLeftCL s.data).reverse) := mem_dropWhile _ c hw _ h2
  exact List.mem_reverse.mpr h3

/-!  Facts about the syntactic filter and the decoder. -/

/-- A character outside the allow-list makes `sanitizeFilename` throw its
first error. -/
theorem sanitize_illegal (v : String) (c : Char) (hc : c ∈ v.data)
    (hbad : SAFE_FILENAME_char c = false) :
    sanitizeFilename v = .error .illegalChars := by
  have hall : v.data.all SAFE_FILENAME_char = false := by
    rw [List.all_eq_false]
    exact ⟨c, hc, by simp [hbad]⟩
  simp [sanitizeFilename, SAFE_FILENAME, hall]

/-- An occurrence of `..` makes `sanitizeFilename` throw. -/
theorem sanitize_rejects_dd (v : String) (h : ['.', '.'] <:+: v.data) :
    ∃ e, sanitizeFilename v = .error e := by
  by_cases hs : SAFE_FILENAME v = true
  · have hinc : jsIncludes v ".." = true := by
      have hdd : (".." : String).data = ['.', '.'] := rfl
      rw [jsIncludes, hdd, hasSub_iff]
      exact h
    exact ⟨.traversal, by simp [sanitizeFilename, hs, hinc]⟩
  · exact ⟨.illegalChars, by simp [sanitizeFilename, hs]⟩

/-- A leading `/` makes `sanitizeFilename` throw. -/
theorem sanitize_rejects_abs (v : String) (h : v.data.head? = some '/') :
    ∃ e, sanitizeFilename v = .error e := by
  by_cases hs : SAFE_FILENAME v = true
  · by_cases hi : jsIncludes v ".." = true
    · exact ⟨.traversal, by simp [sanitizeFilename, hs, hi]⟩
    · have hsw : jsStartsWith v "/" = true := by
        rw [jsStartsWith]
        have hsl : ("/" : String).data = ['/'] := rfl
        rw [hsl]
        cases hd : v.data with
        | nil => rw [hd] at h; simp at h
        | cons x xs =>
          rw [hd] at h
          simp only [List.head?_cons, Option.some.injEq] at h
          simp [leadsWith, h]
      exact ⟨.absolute, by simp [sanitizeFilename, hs, hi, hsw]⟩
  · exact ⟨.illegalChars, by simp [sanitizeFilename, hs]⟩

/-- When `sanitizeFilename` succeeds it returns its input unchanged, and all
three checks passed. -/
theorem sanitize_ok_elim (v w : String) (h : sanitizeFilename v = .ok w) :
    w = v ∧ SAFE_FILENAME v = true ∧ jsIncludes v ".." = false
      ∧ jsStartsWith v "/" = false := by
  unfold sanitizeFilename at h
  split_ifs at h with h1 h2 h3
  exact ⟨(Except.ok.inj h).symm, by simpa using h1, by simpa using h2,
    by simpa using h3⟩

/-- A string through the `SAFE_FILENAME` regex contains no `%`. -/
theorem SAFE_no_percent (v : String) (h : SAFE_FILENAME v = true) :
    '%' ∉ v.data := by
  intro hm
  rw [SAFE_FILENAME, Bool.and_eq_true] at h
  have hall := List.all_eq_true.mp h.2 '%' hm
  exact absurd hall (by decide)

/-- A string through the `SAFE_FILENAME` regex is nonempty. -/
theorem SAFE_not_empty (v : String) (h : SAFE_FILENAME v = true) :
    v.isEmpty = false := by
  rw [SAFE_FILENAME, Bool.and_eq_true] at h
  simpa using h.1

/-- Percent-decoding is the identity on a `%`-free character list. -/
theorem percentDecodeList_id (l : List Char) (h : '%' ∉ l) :
    percentDecodeList l = some l := by
  induction l with
  | nil => rfl
  | cons c rest ih =>
    have hc : ¬ c = '%' := fun hcc => h (by rw [hcc]; exact List.mem_cons_self _ _)
    have hrest : '%' ∉ rest := fun hm => h (List.mem_cons_of_mem _ hm)
    unfold percentDecodeList
    rw [if_neg hc, ih hrest]

/-- Percent-decoding is the identity on a `%`-free string. -/
theorem percentDecode_id (v : String) (h : '%' ∉ v.data) :
    percentDecode v = some v := by
  rw [percentDecode, percentDecodeList_id v.data h]
  rfl

/-!  Facts about path resolution. -/

/-- `splitSlash` never returns the empty list of chunks. -/
theorem splitSlash_ne_nil : ∀ l : List Char, splitSlash l ≠ [] := by
  intro l
  cases l with
  | nil => simp [splitSlash]
  | cons c t =>
    unfold splitSlash
    by_cases hc : c = '/'
    · simp [hc]
    · rw [if_neg hc]
      cases splitSlash t with
      | nil => simp
      | cons h r => simp

/-- Chunks produced by `splitSlash` contain no separator. -/
theorem splitSlash_no_slash : ∀ (l seg : List Char), seg ∈ splitSlash l → '/' ∉ seg := by
  intro l
  induction l with
  | nil =>
    intro seg h
    simp [splitSlash] at h
    simp [h]
  | cons c t ih =>
    intro seg h
    unfold splitSlash at h
    by_cases hc : c = '/'
    · rw [if_pos hc] at h
      rcases List.mem_cons.mp h with rfl | h
      · simp
      · exact ih seg h
    · rw [if_neg hc] at h
      obtain ⟨h0, r, hr⟩ := List.exists_cons_of_ne_nil (splitSlash_ne_nil t)
      rw [hr] at h
      rcases List.mem_cons.mp h with rfl | h
      · intro hm
        rcases List.mem_cons.mp hm with hm | hm
        · exact hc hm.symm
        · exact ih h0 (by rw [hr]; exact List.mem_cons_self _ _) hm
      · exact ih seg (by rw [hr]; exact List.mem_cons_of_mem _ h)

/-- Segments surviving `normSegs` are nonempty and separator-free, provided
the accumulator's are and the source chunks are separator-free. -/
theorem normSegs_good : ∀ (src acc : List (List Char)),
    (∀ s ∈ acc, s ≠ [] ∧ '/' ∉ s) → (∀ s ∈ src, '/' ∉ s) →
    ∀ s ∈ normSegs acc src, s ≠ [] ∧ '/' ∉ s := by
  intro src
  induction src with
  | nil =>
    intro acc hacc _ s hs
    simpa [normSegs] using hacc s (by simpa [normSegs] using hs)
  | cons seg rest ih =>
    intro acc hacc hsrc s hs
    unfold normSegs at hs
    by_cases h1 : (seg.isEmpty || seg == ['.']) = true
    · rw [if_pos h1] at hs
      exact ih acc hacc (fun x hx => hsrc x (List.mem_cons_of_mem _ hx)) s hs
    · rw [if_neg h1] at hs
      by_cases h2 : (seg == ['.', '.']) = true
      · rw [if_pos h2] at hs
        refine ih acc.dropLast ?_ (fun x hx => hsrc x (List.mem_cons_of_mem _ hx)) s hs
        exact fun x hx => hacc x ((List.dropLast_sublist acc).subset hx)
      · rw [if_neg h2] at hs
        refine ih (acc ++ [seg]) ?_ (fun x hx => hsrc x (List.mem_cons_of_mem _ hx)) s hs
        intro x hx
        rcases List.mem_append.mp hx with hx | hx
        · exact hacc x hx
        · have hxseg : x = seg := by simpa using hx
          subst hxseg
          refine ⟨?_, hsrc x (List.mem_cons_self _ _)⟩
          intro hnil
          rw [hnil] at h1
          simp at h1

/-- The join of nonempty separator-free segments ends in a non-separator
character. -/
theorem joinSegs_getLast : ∀ segs : List (List Char), segs ≠ [] →
    (∀ s ∈ segs, s ≠ [] ∧ '/' ∉ s) →
    ∃ c, (joinSegs segs).getLast? = some c ∧ c ≠ '/' := by
  intro segs
  induction segs with
  | nil => intro h; exact absurd rfl h
  | cons s rest ih =>
    intro _ hgood
    cases rest with
    | nil =>
      have hs := hgood s (List.mem_cons_self _ _)
      obtain ⟨c, hc⟩ := Option.isSome_iff_exists.mp (List.getLast?_isSome.mpr hs.1)
      refine ⟨c, by simpa [joinSegs] using hc, ?_⟩
      intro hcs
      exact hs.2 (hcs ▸ List.mem_of_mem_getLast? hc)
    | cons s2 rest2 =>
      obtain ⟨c, hc, hcne⟩ := ih (by simp) (fun x hx => hgood x (List.mem_cons_of_mem _ hx))
      refine ⟨c, ?_, hcne⟩
      have hJne : joinSegs (s2 :: rest2) ≠ [] := by
        intro hnil
        rw [hnil] at hc
        simp at hc
      show (joinSegs (s :: s2 :: rest2)).getLast? = some c
      unfold joinSegs
      rw [List.getLast?_append_of_ne_nil _ (by simp)]
      cases hJ : joinSegs (s2 :: rest2) with
      | nil => exact absurd hJ hJne
      | cons y ys =>
        rw [hJ] at hc
        simpa [List.getLast?] using hc

/-- A resolved path never equals the base directory with a trailing
separator appended, for an absolute base. -/
theorem pathResolve_ne (base input : String) (hb : jsStartsWith base "/" = true) :
    pathResolve base input ≠ base ++ "/" := by
  intro heq
  have hbne : base.data ≠ [] := by
    intro hnil
    rw [jsStartsWith] at hb
    rw [hnil] at hb
    exact absurd hb (by decide)
  have hdata := congrArg String.data heq
  rw [String.data_append] at hdata
  have hslash : ("/" : String).data = ['/'] := rfl
  rw [hslash] at hdata
  set full : List Char :=
    if jsStartsWith input "/" then input.data else base.data ++ '/' :: input.data with hfull
  have hres : (pathResolve base input).data
      = '/' :: joinSegs (normSegs [] (splitSlash full)) := rfl
  rw [hres] at hdata
  have hgood : ∀ s ∈ normSegs [] (splitSlash full), s ≠ [] ∧ '/' ∉ s :=
    normSegs_good (splitSlash full) [] (by simp) (splitSlash_no_slash full)
  cases hsegs : normSegs [] (splitSlash full) with
  | nil =>
    rw [hsegs] at hdata
    simp only [joinSegs] at hdata
    have hlen : ([ '/' ] : List Char).length = (base.data ++ ['/']).length :=
      congrArg List.length hdata
    rw [List.length_append] at hlen
    simp only [List.length_cons, List.length_nil, List.length_singleton] at hlen
    have hz : base.data.length = 0 := by omega
    exact hbne (List.length_eq_zero.mp hz)
  | cons s r =>
    rw [hsegs] at hdata hgood
    obtain ⟨c, hc, hcne⟩ := joinSegs_getLast (s :: r) (by simp) hgood
    have hlast := congrArg List.getLast? hdata
    have hJne : joinSegs (s :: r) ≠ [] := by
      intro hnil
      rw [hnil] at hc
      simp at hc
    rw [List.getLast?_concat] at hlast
    have hlhs : ('/' :: joinSegs (s :: r)).getLast? = some c := by
      have : ('/' :: joinSegs (s :: r)) = ['/'] ++ joinSegs (s :: r) := rfl
      rw [this, List.getLast?_append_of_ne_nil _ hJne]
      exact hc
    rw [hlhs] at hlast
    exact hcne (by simpa using hlast)


/-!  Facts about the session store. -/

/-- Lookup after an assignment. -/
theorem lookup_cons (t u : String) (d : SessionData) (s : SessionStore) :
    storeLookup ((t, d) :: s) u = if u = t then some d else storeLookup s u := by
  by_cases h : u = t
  · simp [storeLookup, List.lookup, h]
  · have hb : (u == t) = false := beq_eq_false_iff_ne.mpr h
    simp [storeLookup, List.lookup, hb, h]

/-- Lookup after a `delete sessions[t]`. -/
theorem lookup_delete (s : SessionStore) (t u : String) :
    storeLookup (storeDelete s t) u = if u = t then none else storeLookup s u := by
  induction s with
  | nil => by_cases h : u = t <;> simp [storeDelete, storeLookup, List.lookup, h]
  | cons p r ih =>
    obtain ⟨pt, pd⟩ := p
    by_cases hpt : pt = t
    · subst hpt
      have hstep : storeDelete ((pt, pd) :: r) pt = storeDelete r pt := by
        simp [storeDelete, List.filter]
      rw [hstep, ih]
      by_cases h : u = pt
      · simp [h]
      · have hb : (u == pt) = false := beq_eq_false_iff_ne.mpr h
        simp [h, storeLookup, List.lookup, hb]
    · have hb : (pt != t) = true := bne_iff_ne.mpr hpt
      have hstep : storeDelete ((pt, pd) :: r) t = (pt, pd) :: storeDelete r t := by
        simp [storeDelete, List.filter, hb]
      rw [hstep]
      by_cases h : u = pt
      · have hut : ¬ u = t := by rw [h]; exact hpt
        simp [storeLookup, List.lookup, h, hut, hpt]
      · rw [lookup_cons, if_neg h, ih, lookup_cons, if_neg h]

/-- The store update of `requireAuth` never introduces a binding for a token
that was absent. -/
theorem requireAuth_preserves_absent (store : SessionStore) (cookie : Option String)
    (now : Nat) (tok : String) (h : storeLookup store tok = none) :
    storeLookup (requireAuth store cookie now).2 tok = none := by
  cases cookie with
  | none => exact h
  | some c =>
    simp only [requireAuth]
    cases hl : storeLookup store c with
    | none => exact h
    | some sess =>
      by_cases hex : now > sess.expires
      · simp only [hex, if_true]
        rw [lookup_delete]
        by_cases htc : tok = c <;> simp [htc, h]
      · have htc : tok ≠ c := by
          intro hh
          rw [hh, hl] at h
          exact Option.noConfusion h
        simp only [hex, if_false]
        rw [lookup_cons, if_neg htc]
        exact h

/-- No session-lab request re-binds an absent token unless it mints exactly
that token. -/
theorem applyOp_preserves_absent (store : SessionStore) (op : SessionOp) (tok : String)
    (h : storeLookup store tok = none) (hm : minted op ≠ some tok) :
    storeLookup (applyOp store op) tok = none := by
  cases op with
  | create t uid now =>
    have htt : tok ≠ t := by
      intro hh
      exact hm (by rw [minted, hh])
    simp only [applyOp, createSession]
    rw [lookup_cons, if_neg htt]
    exact h
  | rotate old uid t now =>
    have htt : tok ≠ t := by
      intro hh
      exact hm (by rw [minted, hh])
    simp only [applyOp, rotateSession, createSession]
    rw [lookup_cons, if_neg htt]
    cases old with
    | none => exact h
    | some o =>
      by_cases ho : (storeLookup store o).isSome
      · simp only [ho, if_true]
        rw [lookup_delete]
        by_cases hto : tok = o <;> simp [hto, h]
      · simp only [ho, if_false]
        exact h
  | logout c =>
    cases c with
    | none => exact h
    | some o =>
      simp only [applyOp, logoutStore]
      by_cases ho : (storeLookup store o).isSome
      · simp only [ho, if_true]
        rw [lookup_delete]
        by_cases hto : tok = o <;> simp [hto, h]
      · simp only [ho, if_false]
        exact h
  | auth c now => exact requireAuth_preserves_absent store c now tok h

/-- A token absent from the store stays absent across any request sequence
that never mints it. -/
theorem applyOps_preserves_absent (ops : List SessionOp) : ∀ (store : SessionStore)
    (tok : String), storeLookup store tok = none →
    (∀ op ∈ ops, minted op ≠ some tok) →
    storeLookup (applyOps store ops) tok = none := by
  induction ops with
  | nil => intro store tok h _; exact h
  | cons op rest ih =>
    intro store tok h hm
    rw [applyOps, List.foldl_cons]
    exact ih (applyOp store op) tok
      (applyOp_preserves_absent store op tok h (hm op (List.mem_cons_self _ _)))
      fun o ho => hm o (List.mem_cons_of_mem _ ho)

/-- Rotation removes the old token, provided the freshly minted token is not
the old token itself. -/
theorem rotate_removes (store : SessionStore) (old : String) (uid : Nat)
    (newTok : String) (now : Nat) (hne : newTok ≠ old) :
    storeLookup (rotateSession store (some old) uid newTok now) old = none := by
  simp only [rotateSession, createSession]
  rw [lookup_cons, if_neg (fun hh => hne hh.symm)]
  by_cases ho : (storeLookup store old).isSome
  · simp only [ho, if_true]
    rw [lookup_delete, if_pos rfl]
  · simp only [ho, if_false]
    exact Option.not_isSome_iff_eq_none.mp ho

/-- A string passing the JS `startsWith("/")` test has `'/'` as first
character. -/
theorem startsWith_slash_head (s : String) (h : jsStartsWith s "/" = true) :
    s.data.head? = some '/' := by
  rw [jsStartsWith] at h
  have hsl : ("/" : String).data = ['/'] := rfl
  rw [hsl] at h
  cases hd : s.data with
  | nil => rw [hd] at h; exact absurd h (by decide)
  | cons x xs =>
    rw [hd] at h
    simp only [leadsWith, Bool.and_eq_true, beq_iff_eq] at h
    simp only [List.head?_cons, Option.some.injEq]
    exact h.1.symm

/-!  The claims. -/

/-- C5: session creation stores `expiresAt = now + TTL` with TTL = 30
minutes, and every validation of an unexpired token (`now <= expiresAt`)
returns the associated user id and extends the stored expiry to
`now + TTL` (sliding window). -/
theorem C5_sliding_expiry :
    TTL = 30 * 60 * 1000
    ∧ (∀ (store : SessionStore) (token : String) (uid now : Nat),
        storeLookup (createSession store token uid now) token = some ⟨uid, now + TTL⟩)
    ∧ (∀ (store : SessionStore) (token : String) (sess : SessionData) (now : Nat),
        storeLookup store token = some sess → now ≤ sess.expires →
        (requireAuth store (some token) now).1 = .allowed sess.userId
        ∧ storeLookup (requireAuth store (some token) now).2 token
            = some ⟨sess.userId, now + TTL⟩) := by
  refine ⟨rfl, ?_, ?_⟩
  · intro store token uid now
    rw [createSession, lookup_cons, if_pos rfl]
  · intro store token sess now hl hle
    have hex : ¬ now > sess.expires := not_lt.mpr hle
    constructor
    · simp only [requireAuth]
      rw [hl]
      simp [hex]
    · simp only [requireAuth]
      rw [hl]
      simp only [hex, if_false]
      rw [lookup_cons, if_pos rfl]

/-- C5 witness: concrete issuance and sliding renewal. -/
theorem C5_sliding_expiry_witness :
    storeLookup (createSession [] "tok" 7 1000) "tok" = some ⟨7, 1000 + TTL⟩
    ∧ (requireAuth [("tok", ⟨7, 5000⟩)] (some "tok") 400).1 = .allowed 7
    ∧ storeLookup (requireAuth [("tok", ⟨7, 5000⟩)] (some "tok") 400).2 "tok"
        = some ⟨7, 400 + TTL⟩ :=
  ⟨C5_sliding_expiry.2.1 [] "tok" 7 1000,
   (C5_sliding_expiry.2.2 [("tok", ⟨7, 5000⟩)] "tok" ⟨7, 5000⟩ 400 rfl (by decide)).1,
   (C5_sliding_expiry.2.2 [("tok", ⟨7, 5000⟩)] "tok" ⟨7, 5000⟩ 400 rfl (by decide)).2⟩

/-- C3: after `rotateSession(old, uid)` the old token is rejected by
`requireAuth` forever (across any further requests, as long as the fresh
randomness never re-mints the very same token string), and every successful
login rotates: its resulting store is exactly `rotateSession` applied to the
presented cookie, so a pre-authentication token is invalid afterwards. -/
theorem C3_rotation_invariant :
    (∀ (store : SessionStore) (old : String) (uid : Nat) (newTok : String)
        (now : Nat) (ops : List SessionOp) (t : Nat),
      newTok ≠ old →
      (∀ op ∈ ops, minted op ≠ some old) →
      (requireAuth (applyOps (rotateSession store (some old) uid newTok now) ops)
          (some old) t).1 = .denied ⟨401, false, false⟩)
    ∧ (∀ (users : List User) (bc : String → String → Bool) (store : SessionStore)
        (cookie : Option String) (un pw tok : String) (now : Nat),
      (loginHandler users bc store cookie un pw tok now).1.success = true →
      ∃ u, findUser users un = some u
        ∧ (loginHandler users bc store cookie un pw tok now).2.1
            = rotateSession store cookie u.id tok now) := by
  constructor
  · intro store old uid newTok now ops t hne hmint
    have h1 : storeLookup (rotateSession store (some old) uid newTok now) old = none :=
      rotate_removes store old uid newTok now hne
    have h2 := applyOps_preserves_absent ops _ old h1 hmint
    simp only [requireAuth]
    rw [h2]
  · intro users bc store cookie un pw tok now hs
    cases hf : findUser users un with
    | none =>
      exfalso
      simp only [loginHandler] at hs
      rw [hf] at hs
      simp [invalidResp] at hs
    | some u =>
      by_cases hbc : bc pw u.passwordHash = true
      · refine ⟨u, rfl, ?_⟩
        simp only [loginHandler]
        rw [hf]
        simp [hbc]
      · exfalso
        simp only [loginHandler] at hs
        rw [hf] at hs
        simp [hbc, invalidResp] at hs

/-- C3 witness: a concrete rotation followed by another request, and a
concrete successful login while holding a prior token. -/
theorem C3_rotation_invariant_witness :
    (requireAuth (applyOps (rotateSession [("old", ⟨1, 999999999999⟩)] (some "old") 1 "new" 0)
        [SessionOp.auth (some "new") 5]) (some "old") 10).1
      = .denied ⟨401, false, false⟩
    ∧ (loginHandler [⟨1, "student", "hash"⟩] (fun _ _ => true) [("old", ⟨1, 50⟩)]
        (some "old") "student" "pw" "new" 7).2.1
      = rotateSession [("old", ⟨1, 50⟩)] (some "old") 1 "new" 7 := by
  constructor
  · exact C3_rotation_invariant.1 [("old", ⟨1, 999999999999⟩)] "old" 1 "new" 0
      [SessionOp.auth (some "new") 5] 10 (by decide) (by decide)
  · obtain ⟨u, hu, hrot⟩ := C3_rotation_invariant.2 [⟨1, "student", "hash"⟩]
      (fun _ _ => true) [("old", ⟨1, 50⟩)] (some "old") "student" "pw" "new" 7 (by decide)
    have huv : u = ⟨1, "student", "hash"⟩ := by
      have hfv : findUser [⟨1, "student", "hash"⟩] "student"
          = some ⟨1, "student", "hash"⟩ := rfl
      exact Option.some.inj (hu.symm.trans hfv)
    rw [huv] at hrot
    exact hrot

/-- C4 counterexample: at the concrete store `[("t", {userId := 1,
expires := 0})]` and time 1, presenting the expired token `"t"` yields a 401
that also clears the session cookie, while presenting the never-stored token
`"zzz"` yields a 401 without the cookie-clearing instruction — the two
caller-observable outcomes are not identical, contrary to the claim. -/
theorem C4_counterexample :
    (requireAuth [("t", ⟨1, 0⟩)] (some "t") 1).1 = .denied ⟨401, false, true⟩
    ∧ (requireAuth [("t", ⟨1, 0⟩)] (some "zzz") 1).1 = .denied ⟨401, false, false⟩
    ∧ (requireAuth [("t", ⟨1, 0⟩)] (some "t") 1).1
        ≠ (requireAuth [("t", ⟨1, 0⟩)] (some "zzz") 1).1 := by
  refine ⟨rfl, rfl, ?_⟩
  decide

/-- C4 (amended): when `now > expiresAt` at validation time the token is
deleted immediately and validation reports a 401 "not authenticated" whose
status and body match the never-existed case; the expired path additionally
clears the session cookie, which is the only caller-visible difference from
presenting a token that never existed. -/
theorem C4_lazy_expiry :
    ∀ (store : SessionStore) (token : String) (sess : SessionData) (now : Nat)
      (t2 : String),
    storeLookup store token = some sess → now > sess.expires →
    storeLookup store t2 = none →
    (requireAuth store (some token) now).1 = .denied ⟨401, false, true⟩
    ∧ storeLookup (requireAuth store (some token) now).2 token = none
    ∧ (requireAuth store (some t2) now).1 = .denied ⟨401, false, false⟩ := by
  intro store token sess now t2 hl hex h2
  refine ⟨?_, ?_, ?_⟩
  · simp only [requireAuth]
    rw [hl]
    simp [hex]
  · simp only [requireAuth]
    rw [hl]
    simp only [hex, if_true]
    rw [lookup_delete, if_pos rfl]
  · simp only [requireAuth]
    rw [h2]

/-- C4 (amended) witness: concrete expired token versus concrete unknown
token. -/
theorem C4_lazy_expiry_witness :
    (requireAuth [("t", ⟨1, 0⟩)] (some "t") 5).1 = .denied ⟨401, false, true⟩
    ∧ storeLookup (requireAuth [("t", ⟨1, 0⟩)] (some "t") 5).2 "t" = none
    ∧ (requireAuth [("t", ⟨1, 0⟩)] (some "u") 5).1 = .denied ⟨401, false, false⟩ :=
  C4_lazy_expiry [("t", ⟨1, 0⟩)] "t" ⟨1, 0⟩ 5 "u" rfl (by decide) rfl

/-- C2 counterexample: at the concrete seeded user list, a login attempt
with the unknown username `"ghost"` returns the generic failure, but the
hash-comparison flag of the handler is `false`: `bcrypt.compare` is never
invoked on the unknown-user path (the handler returns early), so no
dummy-hash comparison of equivalent cost takes place as the claim requires. -/
theorem C2_counterexample :
    (loginHandler [⟨1, "student", "h0"⟩] (fun _ _ => true) [] none
        "ghost" "pw" "tok" 0).2.2.2 = false
    ∧ (loginHandler [⟨1, "student", "h0"⟩] (fun _ _ => true) [] none
        "ghost" "pw" "tok" 0).1 = invalidResp := by
  exact ⟨rfl, rfl⟩

/-- C2 (amended): a login attempt whose username matches no stored user
returns the same generic failure response as a wrong password (never a
distinguishable error), but the hash comparison is NOT invoked on the
unknown-user path — the handler returns early, so the code does not provide
the dummy-hash, timing-equalizing behaviour the claim describes. -/
theorem C2_unknown_user_generic :
    ∀ (users : List User) (bc : String → String → Bool) (store : SessionStore)
      (cookie : Option String) (un pw tok : String) (now : Nat),
    (findUser users un = none →
      loginHandler users bc store cookie un pw tok now = (invalidResp, store, none, false))
    ∧ (∀ u, findUser users un = some u → bc pw u.passwordHash = false →
      loginHandler users bc store cookie un pw tok now
        = (invalidResp, store, none, true)) := by
  intro users bc store cookie un pw tok now
  constructor
  · intro hf
    simp only [loginHandler]
    rw [hf]
  · intro u hf hbc
    simp only [loginHandler]
    rw [hf]
    simp [hbc]

/-- C2 (amended) witness: unknown username versus known username with wrong
password, at a concrete user list. -/
theorem C2_unknown_user_generic_witness :
    loginHandler [⟨1, "student", "h0"⟩] (fun _ _ => false) [] none "ghost" "pw" "tok" 3
      = (invalidResp, [], none, false)
    ∧ loginHandler [⟨1, "student", "h0"⟩] (fun _ _ => false) [] none "student" "pw" "tok" 3
      = (invalidResp, [], none, true) :=
  ⟨(C2_unknown_user_generic [⟨1, "student", "h0"⟩] (fun _ _ => false) [] none
      "ghost" "pw" "tok" 3).1 rfl,
   (C2_unknown_user_generic [⟨1, "student", "h0"⟩] (fun _ _ => false) [] none
      "student" "pw" "tok" 3).2 ⟨1, "student", "h0"⟩ rfl rfl⟩

/-- C8: every failed login — unknown username, wrong password, or both —
produces the single generic response `401 {success: false, message:
"Invalid username or password"}`, revealing nothing about which factor
failed. -/
theorem C8_generic_failure :
    ∀ (users : List User) (bc : String → String → Bool) (store : SessionStore)
      (cookie : Option String) (un pw tok : String) (now : Nat),
    (loginHandler users bc store cookie un pw tok now).1.success = false →
    (loginHandler users bc store cookie un pw tok now).1 = invalidResp := by
  intro users bc store cookie un pw tok now hfail
  cases hf : findUser users un with
  | none =>
    simp only [loginHandler]
    rw [hf]
  | some u =>
    by_cases hbc : bc pw u.passwordHash = true
    · exfalso
      simp only [loginHandler] at hfail
      rw [hf] at hfail
      simp [hbc] at hfail
    · have hbf : bc pw u.passwordHash = false := by simpa using hbc
      simp only [loginHandler]
      rw [hf]
      simp [hbf]

/-- C8 witness: a concrete wrong-password failure carries the generic
message. -/
theorem C8_generic_failure_witness :
    (loginHandler [⟨1, "student", "h0"⟩] (fun _ _ => false) [] none
        "student" "bad" "tok" 0).1 = invalidResp :=
  C8_generic_failure [⟨1, "student", "h0"⟩] (fun _ _ => false) [] none
    "student" "bad" "tok" 0 rfl

/-- C1: any request whose filename contains `../`, or begins with `/`, or
contains a percent-encoded sequence (every percent-encoding contains the
`%` character, which is outside the allow-list) is rejected by the guarded
`/read` route with the 400 validation outcome, before any filesystem access
— the access log of the handler is empty and the result does not depend on
the filesystem oracles. -/
theorem C1_reject_before_read :
    ∀ (base : String) (fsE : String → Bool) (fsR : String → String) (raw : String),
    (jsIncludes raw "../" = true ∨ jsStartsWith raw "/" = true ∨ '%' ∈ raw.data) →
    readHandler base fsE fsR raw = (.validationFailed, []) := by
  intro base fsE fsR raw h
  have herr : ∃ e, sanitizeFilename (jsTrim raw) = .error e := by
    rcases h with h | h | h
    · have hsubraw : ['.', '.', '/'] <:+: raw.data := by
        have hdd : ("../" : String).data = ['.', '.', '/'] := rfl
        rw [jsIncludes, hdd, hasSub_iff] at h
        exact h
      have hsubtrim : ['.', '.', '/'] <:+: (jsTrim raw).data :=
        sub_trim raw _ '.' '/' rfl (by decide) rfl (by decide) hsubraw
      have hdd2 : ['.', '.'] <:+: (jsTrim raw).data :=
        List.IsInfix.trans (by decide) hsubtrim
      exact sanitize_rejects_dd _ hdd2
    · have hh := startsWith_slash_head raw h
      exact sanitize_rejects_abs _ (head_trim raw '/' hh (by decide))
    · have hm := mem_trim raw '%' h (by decide)
      exact ⟨.illegalChars, sanitize_illegal _ '%' hm (by decide)⟩
  obtain ⟨e, he⟩ := herr
  by_cases hemp : (jsTrim raw).isEmpty = true
  · simp only [readHandler]
    rw [if_pos hemp]
  · simp only [readHandler]
    rw [if_neg hemp, he]

/-- C1 witness: the classic traversal input is rejected with no filesystem
access, whatever the filesystem contains. -/
theorem C1_reject_before_read_witness :
    jsIncludes "../../etc/passwd" "../" = true
    ∧ readHandler "/app/files" (fun _ => true) (fun _ => "secret") "../../etc/passwd"
        = (.validationFailed, []) :=
  ⟨rfl,
   C1_reject_before_read "/app/files" (fun _ => true) (fun _ => "secret")
     "../../etc/passwd" (Or.inl rfl)⟩

/-- C9: a string accepted by the syntactic filter contains no `%`, hence the
subsequent single percent-decoding step is the identity on it, the decoded
string equals the filtered string, and resolving it is the same as resolving
without any decoding — the decode-after-check ordering cannot manufacture a
string the filter would have rejected. -/
theorem C9_decode_identity :
    ∀ (v w base : String), sanitizeFilename v = .ok w →
    w = v ∧ '%' ∉ v.data ∧ percentDecode v = some v
    ∧ resolveSafe base v = pathResolve base v := by
  intro v w base h
  obtain ⟨hw, hsafe, -, -⟩ := sanitize_ok_elim v w h
  have hp := SAFE_no_percent v hsafe
  have hd := percentDecode_id v hp
  refine ⟨hw, hp, hd, ?_⟩
  show pathResolve base ((percentDecode v).getD v) = pathResolve base v
  rw [hd]
  rfl

/-- C9 witness: a concrete filtered filename decodes to itself. -/
theorem C9_decode_identity_witness :
    ("notes/readme.md" : String) = "notes/readme.md"
    ∧ '%' ∉ ("notes/readme.md" : String).data
    ∧ percentDecode "notes/readme.md" = some "notes/readme.md"
    ∧ resolveSafe "/app/files" "notes/readme.md"
        = pathResolve "/app/files" "notes/readme.md" :=
  C9_decode_identity "notes/readme.md" "notes/readme.md" "/app/files" rfl

/-- C10: an input that passes the syntactic filter but resolves exactly to
the base directory (for example `"."`) is rejected by the containment check
with the 403 traversal outcome and no filesystem access, because the
resolved path lacks the required trailing separator after the base — the
base directory itself is never readable through the guarded route. -/
theorem C10_base_dir_rejected :
    ∀ (base : String) (fsE : String → Bool) (fsR : String → String) (raw w : String),
    sanitizeFilename (jsTrim raw) = .ok w →
    resolveSafe base (jsTrim raw) = base →
    readHandler base fsE fsR raw = (.traversalDetected, []) := by
  intro base fsE fsR raw w hok hres
  obtain ⟨hw, hsafe, -, -⟩ := sanitize_ok_elim _ _ hok
  have hne : (jsTrim raw).isEmpty = false := SAFE_not_empty _ hsafe
  have hsw : jsStartsWith (resolveSafe base (jsTrim raw)) (base ++ "/") = false := by
    rw [hres, jsStartsWith]
    by_contra hcon
    rw [Bool.not_eq_false, leadsWith_iff] at hcon
    have hlen := hcon.length_le
    rw [String.data_append] at hlen
    simp at hlen
  simp only [readHandler]
  rw [if_neg (by rw [hne]; exact Bool.false_ne_true), hok]
  simp [hsw]

/-- C10 witness: the input `"."` passes the filter, resolves to the base
directory itself, and is rejected as a traversal with no filesystem
access. -/
theorem C10_base_dir_rejected_witness :
    sanitizeFilename (jsTrim ".") = .ok "."
    ∧ resolveSafe "/app/files" (jsTrim ".") = "/app/files"
    ∧ readHandler "/app/files" (fun _ => true) (fun _ => "top") "."
        = (.traversalDetected, []) :=
  ⟨rfl, rfl,
   C10_base_dir_rejected "/app/files" (fun _ => true) (fun _ => "top") "." "." rfl rfl⟩

/-- C7: the syntactic filter, running before any decoding or resolution,
throws on any character outside the allow-list, on any literal `..`, and on
a leading separator; every filter error surfaces as the 400 validation
outcome (with no filesystem access and independently of the base directory
and the filesystem), and the 403 traversal outcome can only arise for
inputs the filter accepted — the two rejection kinds are distinct. -/
theorem C7_syntactic_filter :
    ∀ (v base : String) (fsE : String → Bool) (fsR : String → String) (raw : String),
    (∀ c, c ∈ v.data → SAFE_FILENAME_char c = false →
      sanitizeFilename v = .error .illegalChars)
    ∧ (jsIncludes v ".." = true → ∃ e, sanitizeFilename v = .error e)
    ∧ (jsStartsWith v "/" = true → ∃ e, sanitizeFilename v = .error e)
    ∧ (∀ e, sanitizeFilename (jsTrim raw) = .error e →
        readHandler base fsE fsR raw = (.validationFailed, []))
    ∧ (∀ r, readHandler base fsE fsR raw = (.traversalDetected, r) →
        ∃ w, sanitizeFilename (jsTrim raw) = .ok w) := by
  intro v base fsE fsR raw
  refine ⟨?_, ?_, ?_, ?_, ?_⟩
  · intro c hc hbad
    exact sanitize_illegal v c hc hbad
  · intro h
    have hdd : (".." : String).data = ['.', '.'] := rfl
    rw [jsIncludes, hdd, hasSub_iff] at h
    exact sanitize_rejects_dd v h
  · intro h
    exact sanitize_rejects_abs v (startsWith_slash_head v h)
  · intro e he
    by_cases hemp : (jsTrim raw).isEmpty = true
    · simp only [readHandler]
      rw [if_pos hemp]
    · simp only [readHandler]
      rw [if_neg hemp, he]
  · intro r hr
    by_cases hemp : (jsTrim raw).isEmpty = true
    · exfalso
      simp only [readHandler] at hr
      rw [if_pos hemp] at hr
      simp at hr
    · cases hs : sanitizeFilename (jsTrim raw) with
      | error e =>
        exfalso
        simp only [readHandler] at hr
        rw [if_neg hemp, hs] at hr
        simp at hr
      | ok w => exact ⟨w, rfl⟩

/-- C7 witness: a disallowed character, a literal `..`, a leading slash,
and the surfaced 400 outcome at concrete inputs. -/
theorem C7_syntactic_filter_witness :
    sanitizeFilename "a b" = .error .illegalChars
    ∧ (∃ e, sanitizeFilename "a..b" = .error e)
    ∧ (∃ e, sanitizeFilename "/etc" = .error e)
    ∧ readHandler "/app/files" (fun _ => true) (fun _ => "x") "a..b"
        = (.validationFailed, []) := by
  refine ⟨?_, ?_, ?_, ?_⟩
  · exact (C7_syntactic_filter "a b" "/app/files" (fun _ => true) (fun _ => "x")
      "a..b").1 ' ' (by decide) (by decide)
  · exact (C7_syntactic_filter "a..b" "/app/files" (fun _ => true) (fun _ => "x")
      "a..b").2.1 rfl
  · exact (C7_syntactic_filter "/etc" "/app/files" (fun _ => true) (fun _ => "x")
      "a..b").2.2.1 rfl
  · exact (C7_syntactic_filter "a..b" "/app/files" (fun _ => true) (fun _ => "x")
      "a..b").2.2.2.1 .traversal rfl

/-- C6: for an input that passed the syntactic filter, the request proceeds
to the filesystem exactly when the canonical base directory followed by one
separator is a strict prefix of the resolved absolute path (the code's
`startsWith(BASE_DIR + path.sep)` check is equivalent to the strict-prefix
condition, because a resolved path can never equal `base ++ "/"` for an
absolute base); otherwise the request ends with the 403 traversal outcome.
The containment check is thus the final gate after the syntactic filter. -/
theorem C6_containment_final_gate :
    ∀ (base : String) (fsE : String → Bool) (fsR : String → String) (raw w : String),
    jsStartsWith base "/" = true →
    sanitizeFilename (jsTrim raw) = .ok w →
    (((base ++ "/").data <+: (resolveSafe base (jsTrim raw)).data
        ∧ resolveSafe base (jsTrim raw) ≠ base ++ "/") →
      readHandler base fsE fsR raw
        = (if fsE (resolveSafe base (jsTrim raw))
            then (.ok (resolveSafe base (jsTrim raw))
                (fsR (resolveSafe base (jsTrim raw))),
              [resolveSafe base (jsTrim raw), resolveSafe base (jsTrim raw)])
            else (.fileNotFound, [resolveSafe base (jsTrim raw)])))
    ∧ (¬ ((base ++ "/").data <+: (resolveSafe base (jsTrim raw)).data
        ∧ resolveSafe base (jsTrim raw) ≠ base ++ "/") →
      readHandler base fsE fsR raw = (.traversalDetected, [])) := by
  intro base fsE fsR raw w hb hok
  obtain ⟨hw, hsafe, -, -⟩ := sanitize_ok_elim _ _ hok
  have hne : (jsTrim raw).isEmpty = false := SAFE_not_empty _ hsafe
  have hnb : resolveSafe base (jsTrim raw) ≠ base ++ "/" :=
    pathResolve_ne base ((percentDecode (jsTrim raw)).getD (jsTrim raw)) hb
  constructor
  · rintro ⟨hpre, -⟩
    have hsw : jsStartsWith (resolveSafe base (jsTrim raw)) (base ++ "/") = true := by
      rw [jsStartsWith, leadsWith_iff]
      exact hpre
    simp only [readHandler]
    rw [if_neg (by rw [hne]; exact Bool.false_ne_true), hok]
    simp only [hsw, Bool.not_true, Bool.false_eq_true, if_false]
    by_cases hf : fsE (resolveSafe base (jsTrim raw)) = true
    · simp [hf]
    · have hf2 : fsE (resolveSafe base (jsTrim raw)) = false := by simpa using hf
      simp [hf2]
  · intro hnot
    have hpre : ¬ ((base ++ "/").data <+: (resolveSafe base (jsTrim raw)).data) :=
      fun hp => hnot ⟨hp, hnb⟩
    have hsw : jsStartsWith (resolveSafe base (jsTrim raw)) (base ++ "/") = false := by
      rw [jsStartsWith]
      by_contra hcon
      rw [Bool.not_eq_false, leadsWith_iff] at hcon
      exact hpre hcon
    simp only [readHandler]
    rw [if_neg (by rw [hne]; exact Bool.false_ne_true), hok]
    simp [hsw]

/-- C6 witness: a contained filename proceeds to the filesystem stage, and a
filter-passing input resolving to the base itself ends as a 403 traversal. -/
theorem C6_containment_final_gate_witness :
    readHandler "/app/files" (fun _ => false) (fun _ => "x") "hello.txt"
      = (.fileNotFound, ["/app/files/hello.txt"])
    ∧ readHandler "/app/files" (fun _ => false) (fun _ => "x") "./."
      = (.traversalDetected, []) := by
  constructor
  · have h := (C6_containment_final_gate "/app/files" (fun _ => false) (fun _ => "x")
      "hello.txt" "hello.txt" rfl rfl).1 ⟨by decide, by decide⟩
    exact h.trans (by decide)
  · exact (C6_containment_final_gate "/app/files" (fun _ => false) (fun _ => "x")
      "./." "./." rfl rfl).2 (fun hcon => by
        have hp := hcon.1
        rw [← leadsWith_iff] at hp
        exact absurd hp (by decide))
